import Mathlib

/-!
Verification development for the repository state engine: commit DAG
reachability, view-invariant enforcement (`MutableRepo::enforce_view_invariants`),
`MutableRepo::check_out`, `cmd_branch_set`, the parallelize transformation and
conflict-marker materialization/parsing.  Machine integers are modelled as Nat
(ids are opaque byte strings with a total order), maps as association lists,
and fallible code as `Except`/`Option`.
-/

/-! ## List helpers -/

/-- Deduplicate a list keeping the first occurrence of each element,
with an accumulator of elements already seen. -/
def dedupAcc (seen : List Nat) : List Nat → List Nat
  | [] => []
  | x :: xs => if x ∈ seen then dedupAcc seen xs else x :: dedupAcc (x :: seen) xs

/-- Deduplicate a list keeping the first occurrence of each element
(the semantics of inserting into an ordered set). -/
def dedupFirst (l : List Nat) : List Nat := dedupAcc [] l

theorem mem_dedupAcc {x : Nat} : ∀ {seen l : List Nat},
    x ∈ dedupAcc seen l ↔ x ∈ l ∧ x ∉ seen := by
  intro seen l
  induction l generalizing seen with
  | nil => simp [dedupAcc]
  | cons y ys ih =>
    by_cases hy : y ∈ seen
    · rw [dedupAcc, if_pos hy, ih]
      simp only [List.mem_cons]
      constructor
      · rintro ⟨hx, hs⟩; exact ⟨Or.inr hx, hs⟩
      · rintro ⟨hx | hx, hs⟩
        · exact absurd hy (hx ▸ hs)
        · exact ⟨hx, hs⟩
    · rw [dedupAcc, if_neg hy]
      simp only [List.mem_cons, ih, not_or]
      constructor
      · rintro (rfl | ⟨hx, hs⟩)
        · exact ⟨Or.inl rfl, hy⟩
        · exact ⟨Or.inr hx, hs.2⟩
      · rintro ⟨rfl | hx, hs⟩
        · exact Or.inl rfl
        · by_cases hxy : x = y
          · exact Or.inl hxy
          · exact Or.inr ⟨hx, hxy, hs⟩

theorem mem_dedupFirst {x : Nat} {l : List Nat} : x ∈ dedupFirst l ↔ x ∈ l := by
  simp [dedupFirst, mem_dedupAcc]

theorem dedupAcc_nodup : ∀ (seen l : List Nat),
    (dedupAcc seen l).Nodup ∧ ∀ x ∈ dedupAcc seen l, x ∉ seen := by
  intro seen l
  induction l generalizing seen with
  | nil => simp [dedupAcc]
  | cons y ys ih =>
    by_cases hy : y ∈ seen
    · simpa [dedupAcc, if_pos hy] using ih seen
    · obtain ⟨hnd, hmem⟩ := ih (y :: seen)
      refine ⟨?_, ?_⟩
      · simp only [dedupAcc, if_neg hy, List.nodup_cons]
        exact ⟨fun h => (hmem y h) (List.mem_cons_self _ _), hnd⟩
      · intro x hx
        simp only [dedupAcc, if_neg hy, List.mem_cons] at hx
        rcases hx with rfl | hx
        · exact hy
        · exact fun h => (hmem x hx) (List.mem_cons_of_mem _ h)

theorem dedupFirst_nodup (l : List Nat) : (dedupFirst l).Nodup :=
  (dedupAcc_nodup [] l).1

theorem dedupFirst_eq_self {l : List Nat} (h : l.Nodup) : dedupFirst l = l := by
  suffices H : ∀ (seen : List Nat) (l : List Nat), l.Nodup →
      (∀ x ∈ l, x ∉ seen) → dedupAcc seen l = l from H [] l h (by simp)
  intro seen l
  induction l generalizing seen with
  | nil => intro _ _; rfl
  | cons y ys ih =>
    intro hnd hout
    have hy : y ∉ seen := hout y (List.mem_cons_self _ _)
    simp only [dedupAcc, if_neg hy]
    rw [ih (y :: seen) (List.Nodup.of_cons hnd)]
    intro x hx
    simp only [List.mem_cons]
    rintro (rfl | hs)
    · exact (List.nodup_cons.1 hnd).1 hx
    · exact hout x (List.mem_cons_of_mem _ hx) hs

theorem flatMap_singletons {α : Type} (l : List α) (f : α → List α)
    (h : ∀ a ∈ l, f a = [a]) : l.flatMap f = l := by
  induction l with
  | nil => rfl
  | cons x xs ih =>
    rw [List.flatMap_cons, h x (List.mem_cons_self _ _),
      ih fun a ha => h a (List.mem_cons_of_mem _ ha)]
    rfl

theorem flatMap_congr_mem {α β : Type} {l : List α} {f g : α → List β}
    (h : ∀ a ∈ l, f a = g a) : l.flatMap f = l.flatMap g := by
  induction l with
  | nil => rfl
  | cons x xs ih =>
    rw [List.flatMap_cons, List.flatMap_cons, h x (List.mem_cons_self _ _),
      ih fun a ha => h a (List.mem_cons_of_mem _ ha)]

/-- Insert into a sorted list of ids (sorting is by CommitId order). -/
def insertSorted (x : Nat) : List Nat → List Nat
  | [] => [x]
  | y :: ys => if x ≤ y then x :: y :: ys else y :: insertSorted x ys

/-- Sort a list of commit ids ascending. -/
def sortNat (l : List Nat) : List Nat := l.foldr insertSorted []

theorem insertSorted_perm (x : Nat) (l : List Nat) :
    (insertSorted x l).Perm (x :: l) := by
  induction l with
  | nil => exact List.Perm.refl _
  | cons y ys ih =>
    by_cases h : x ≤ y
    · simp [insertSorted, if_pos h]
    · simp only [insertSorted, if_neg h]
      exact (ih.cons y).trans (List.Perm.swap x y ys)

theorem sortNat_perm (l : List Nat) : (sortNat l).Perm l := by
  induction l with
  | nil => exact List.Perm.refl _
  | cons x xs ih =>
    exact (insertSorted_perm x (sortNat xs)).trans (ih.cons x)

theorem mem_sortNat {x : Nat} {l : List Nat} : x ∈ sortNat l ↔ x ∈ l :=
  (sortNat_perm l).mem_iff

theorem sortNat_nodup {l : List Nat} (h : l.Nodup) : (sortNat l).Nodup :=
  (sortNat_perm l).nodup_iff.2 h

theorem filter_eq_singleton {l : List Nat} {p : Nat → Bool} {a : Nat}
    (hnd : l.Nodup) (ha : a ∈ l) (hp : ∀ x ∈ l, p x = true ↔ x = a) :
    l.filter p = [a] := by
  induction l with
  | nil => cases ha
  | cons y ys ih =>
    by_cases hya : y = a
    · subst hya
      have hy : p y = true := (hp y (List.mem_cons_self _ _)).2 rfl
      have hnil : ys.filter p = [] := by
        rw [List.filter_eq_nil_iff]
        intro x hx hpx
        have hxa := (hp x (List.mem_cons_of_mem _ hx)).1 hpx
        exact (List.nodup_cons.1 hnd).1 (hxa ▸ hx)
      simp [List.filter_cons, hy, hnil]
    · have ha' : a ∈ ys := by
        rcases List.mem_cons.1 ha with h | h
        · exact absurd h.symm hya
        · exact h
      have hy : ¬ p y = true := fun hpy => hya ((hp y (List.mem_cons_self _ _)).1 hpy)
      rw [List.filter_cons, if_neg (by simpa using hy)]
      exact ih (List.Nodup.of_cons hnd) ha'
        fun x hx => hp x (List.mem_cons_of_mem _ hx)

/-! ## The commit DAG and its reachability index

`src/lib/src/repo.rs` consumes a `CommitIndex` (spec §4.D): exact ancestry
queries and `heads(S)` removing proper ancestors.  Commit ids are modelled as
naturals; acyclicity is expressed by every parent id being smaller than its
child id (an arbitrary topological numbering of the store's commits).
Commit parent lists are duplicate-free, as written by the backend. -/

structure Dag where
  parents : Nat → List Nat
  wf : ∀ c p, p ∈ parents c → p < c
  nodup : ∀ c, (parents c).Nodup

/-- A concrete DAG given by an association list of (commit, parents) entries.
Entries are filtered to respect the topological numbering, which is the
identity on well-formed inputs. -/
def dagOfList (l : List (Nat × List Nat)) : Dag where
  parents := fun c => dedupFirst (((l.lookup c).getD []).filter (fun p => decide (p < c)))
  wf := by
    intro c p hp
    have hp' := mem_dedupFirst.1 hp
    have := List.of_mem_filter hp'
    exact of_decide_eq_true this
  nodup := fun _ => dedupFirst_nodup _

/-- Fuelled ancestry test: `a` is an ancestor of `b` (reflexively) when it is
`b` or an ancestor of one of `b`'s parents.  Fuel `b + 1` always suffices
because parent ids strictly decrease. -/
def ancFuel (d : Dag) : Nat → Nat → Nat → Bool
  | 0, a, b => a == b
  | f + 1, a, b => a == b || (d.parents b).any (fun p => ancFuel d f a p)

/-- `CommitIndex::is_ancestor` (reflexive ancestry). -/
def isAncestorB (d : Dag) (a b : Nat) : Bool := ancFuel d b a b

/-- Reflexive-transitive ancestry in the commit DAG, as a proposition. -/
inductive Anc (d : Dag) : Nat → Nat → Prop
  | refl (a : Nat) : Anc d a a
  | step {a p b : Nat} : Anc d a p → p ∈ d.parents b → Anc d a b

theorem Anc.le {d : Dag} {a b : Nat} (h : Anc d a b) : a ≤ b := by
  induction h with
  | refl => exact Nat.le_refl _
  | step _ hp ih => exact Nat.le_trans ih (Nat.le_of_lt (d.wf _ _ hp))

theorem Anc.trans {d : Dag} {a b c : Nat} (hab : Anc d a b) (hbc : Anc d b c) :
    Anc d a c := by
  induction hbc with
  | refl => exact hab
  | step _ hp ih => exact Anc.step ih hp

theorem anc_iff_cases {d : Dag} {a b : Nat} :
    Anc d a b ↔ a = b ∨ ∃ p ∈ d.parents b, Anc d a p := by
  constructor
  · intro h
    cases h with
    | refl => exact Or.inl rfl
    | step h hp => exact Or.inr ⟨_, hp, h⟩
  · rintro (rfl | ⟨p, hp, h⟩)
    · exact Anc.refl _
    · exact Anc.step h hp

theorem ancFuel_iff {d : Dag} : ∀ {f a b : Nat}, b ≤ f →
    (ancFuel d f a b = true ↔ Anc d a b) := by
  intro f
  induction f with
  | zero =>
    intro a b hb
    have : b = 0 := Nat.le_zero.1 hb
    subst this
    simp only [ancFuel, beq_iff_eq]
    constructor
    · rintro rfl; exact Anc.refl _
    · intro h
      rcases anc_iff_cases.1 h with rfl | ⟨p, hp, _⟩
      · rfl
      · exact absurd (d.wf 0 p hp) (Nat.not_lt_zero p)
  | succ f ih =>
    intro a b hb
    simp only [ancFuel, Bool.or_eq_true, beq_iff_eq, List.any_eq_true]
    rw [anc_iff_cases]
    constructor
    · rintro (rfl | ⟨p, hp, hf⟩)
      · exact Or.inl rfl
      · have hpf : p ≤ f := Nat.le_of_lt_succ (Nat.lt_of_lt_of_le (d.wf b p hp) hb)
        exact Or.inr ⟨p, hp, (ih hpf).1 hf⟩
    · rintro (rfl | ⟨p, hp, h⟩)
      · exact Or.inl rfl
      · have hpf : p ≤ f := Nat.le_of_lt_succ (Nat.lt_of_lt_of_le (d.wf b p hp) hb)
        exact Or.inr ⟨p, hp, (ih hpf).2 h⟩

theorem isAncestorB_iff {d : Dag} {a b : Nat} : isAncestorB d a b = true ↔ Anc d a b :=
  ancFuel_iff (Nat.le_refl b)

/-- Proper (strict) ancestry: `a` is an ancestor of `b` and differs from it. -/
def PAnc (d : Dag) (a b : Nat) : Prop := Anc d a b ∧ a ≠ b

theorem PAnc.lt {d : Dag} {a b : Nat} (h : PAnc d a b) : a < b :=
  Nat.lt_of_le_of_ne h.1.le h.2

/-- Decidable proper ancestry, as used by `heads`. -/
def properAncB (d : Dag) (a b : Nat) : Bool := a != b && isAncestorB d a b

theorem properAncB_iff {d : Dag} {a b : Nat} : properAncB d a b = true ↔ PAnc d a b := by
  simp only [properAncB, Bool.and_eq_true, bne_iff_ne, isAncestorB_iff, PAnc]
  exact ⟨fun ⟨h1, h2⟩ => ⟨h2, h1⟩, fun ⟨h1, h2⟩ => ⟨h2, h1⟩⟩

/-- `CommitIndex::heads(S)`: remove every element of `S` that is a proper
ancestor of another element of `S`. -/
def dagHeads (d : Dag) (s : List Nat) : List Nat :=
  s.filter (fun x => !(s.any (fun y => properAncB d x y)))

theorem mem_dagHeads {d : Dag} {s : List Nat} {x : Nat} :
    x ∈ dagHeads d s ↔ x ∈ s ∧ ∀ y ∈ s, ¬ PAnc d x y := by
  simp only [dagHeads, List.mem_filter, Bool.not_eq_true', List.any_eq_false]
  constructor
  · rintro ⟨hx, h⟩
    exact ⟨hx, fun y hy hp => by simpa [properAncB_iff.2 hp] using h y hy⟩
  · rintro ⟨hx, h⟩
    refine ⟨hx, fun y hy => ?_⟩
    cases hb : properAncB d x y
    · simp
    · exact absurd (properAncB_iff.1 hb) (h y hy)

theorem dagHeads_subset {d : Dag} {s : List Nat} {x : Nat}
    (h : x ∈ dagHeads d s) : x ∈ s := (mem_dagHeads.1 h).1

/-- Upper bound of a list of ids. -/
def listMax (l : List Nat) : Nat := l.foldr max 0

theorem le_listMax {x : Nat} : ∀ {l : List Nat}, x ∈ l → x ≤ listMax l := by
  intro l
  induction l with
  | nil => intro h; cases h
  | cons y ys ih =>
    intro h
    rcases List.mem_cons.1 h with rfl | h'
    · exact Nat.le_max_left _ _
    · exact Nat.le_trans (ih h') (Nat.le_max_right _ _)

/-- Every member of a finite set of commits has a DAG-head of that set above
it: climb strict ancestry, which is bounded by the largest id in the set. -/
theorem exists_head_above {d : Dag} {s : List Nat} :
    ∀ x ∈ s, ∃ y, y ∈ dagHeads d s ∧ Anc d x y := by
  suffices H : ∀ (n x : Nat), x ∈ s → listMax s - x ≤ n →
      ∃ y, y ∈ dagHeads d s ∧ Anc d x y by
    intro x hx
    exact H (listMax s) x hx (Nat.sub_le _ _)
  intro n
  induction n with
  | zero =>
    intro x hx hn
    by_cases hxh : x ∈ dagHeads d s
    · exact ⟨x, hxh, Anc.refl x⟩
    · exfalso
      have := mem_dagHeads.not.1 hxh
      push_neg at this
      obtain ⟨y, hy, hp⟩ := this hx
      have h1 : x < y := hp.lt
      have h2 : y ≤ listMax s := le_listMax hy
      have h3 : listMax s ≤ x := Nat.sub_eq_zero_iff_le.1 (Nat.le_zero.1 hn)
      omega
  | succ n ih =>
    intro x hx hn
    by_cases hxh : x ∈ dagHeads d s
    · exact ⟨x, hxh, Anc.refl x⟩
    · have := mem_dagHeads.not.1 hxh
      push_neg at this
      obtain ⟨y, hy, hp⟩ := this hx
      have h1 : x < y := hp.lt
      have h2 : y ≤ listMax s := le_listMax hy
      obtain ⟨z, hz, hyz⟩ := ih y hy (by omega)
      exact ⟨z, hz, hp.1.trans hyz⟩

/-- Computing heads of `A ++ heads B` is the same (as a set) as heads of
`A ++ B`: trimming `B` first does not change the maximal elements. -/
theorem mem_dagHeads_append_dagHeads {d : Dag} {A B : List Nat} {x : Nat} :
    x ∈ dagHeads d (A ++ dagHeads d B) ↔ x ∈ dagHeads d (A ++ B) := by
  constructor
  · intro h
    obtain ⟨hmem, hmax⟩ := mem_dagHeads.1 h
    refine mem_dagHeads.2 ⟨?_, ?_⟩
    · rcases List.mem_append.1 hmem with h' | h'
      · exact List.mem_append.2 (Or.inl h')
      · exact List.mem_append.2 (Or.inr (dagHeads_subset h'))
    · intro y hy hp
      rcases List.mem_append.1 hy with h' | h'
      · exact hmax y (List.mem_append.2 (Or.inl h')) hp
      · obtain ⟨z, hz, hyz⟩ := exists_head_above y h'
        have hxz : PAnc d x z := by
          refine ⟨hp.1.trans hyz, ?_⟩
          have : x < z := Nat.lt_of_lt_of_le hp.lt hyz.le
          omega
        exact hmax z (List.mem_append.2 (Or.inr hz)) hxz
  · intro h
    obtain ⟨hmem, hmax⟩ := mem_dagHeads.1 h
    refine mem_dagHeads.2 ⟨?_, ?_⟩
    · rcases List.mem_append.1 hmem with h' | h'
      · exact List.mem_append.2 (Or.inl h')
      · refine List.mem_append.2 (Or.inr (mem_dagHeads.2 ⟨h', ?_⟩))
        intro y hy
        exact hmax y (List.mem_append.2 (Or.inr hy))
    · intro y hy
      rcases List.mem_append.1 hy with h' | h'
      · exact hmax y (List.mem_append.2 (Or.inl h'))
      · exact hmax y (List.mem_append.2 (Or.inr (dagHeads_subset h')))

/-! ## The view and `MutableRepo::enforce_view_invariants`

Embedding of `op_store::View` (spec §3) and of the invariant enforcement in
`src/lib/src/repo.rs` lines 580-599.  Ref targets are modelled by their list
of referenced (added) commit ids. -/

structure StoreView where
  headIds : List Nat
  publicHeadIds : List Nat
  checkouts : List (String × Nat)
  branches : List (String × List Nat)
  tags : List (String × List Nat)
  gitRefs : List (String × List Nat)
deriving DecidableEq

/-- `MutableRepo::enforce_view_invariants` (repo.rs:580-599): when the view is
dirty, recompute `public_head_ids` as DAG-heads of itself, extend `head_ids`
with the result, and recompute `head_ids` as DAG-heads.  When the view is not
dirty it returns unchanged. -/
def enforceViewInvariants (d : Dag) (viewDirty : Bool) (v : StoreView) : StoreView :=
  if viewDirty then
    let pub := dagHeads d v.publicHeadIds
    { v with publicHeadIds := pub, headIds := dagHeads d (v.headIds ++ pub) }
  else v

/-- All commits referenced by checkouts, branches, tags and git refs of a
view (the ref part of the union in the spec's invariant H). -/
def specReferencedCommits (v : StoreView) : List Nat :=
  v.checkouts.map (fun kv => kv.2)
    ++ (v.branches.map (fun kv => kv.2)).flatten
    ++ (v.tags.map (fun kv => kv.2)).flatten
    ++ (v.gitRefs.map (fun kv => kv.2)).flatten

/-- The spec's invariant H, following its words: `head_ids` equals (as a set)
`DAG-heads(head_ids ∪ public_head_ids ∪ values(checkouts) ∪
referenced-commits(branches, tags, git_refs))`. -/
def specInvariantH (d : Dag) (v : StoreView) : Prop :=
  (∀ x ∈ v.headIds,
      x ∈ dagHeads d (v.headIds ++ v.publicHeadIds ++ specReferencedCommits v)) ∧
  (∀ x ∈ dagHeads d (v.headIds ++ v.publicHeadIds ++ specReferencedCommits v),
      x ∈ v.headIds)

instance (d : Dag) (v : StoreView) : Decidable (specInvariantH d v) := by
  unfold specInvariantH
  exact instDecidableAnd

/-- Two unrelated commits, neither an ancestor of the other. -/
def dagTwoSiblings : Dag := dagOfList [(1, []), (2, [])]

/-- A view whose default-workspace checkout (commit 2) is not a head. -/
def viewCheckoutNotHead : StoreView where
  headIds := [1]
  publicHeadIds := []
  checkouts := [("default", 2)]
  branches := []
  tags := []
  gitRefs := []

/-- C1, counterexample: `enforce_view_invariants` recomputes `head_ids` only
from `head_ids ∪ public_head_ids`; a view whose checkout references a commit
that is not an ancestor of any head comes out of enforcement violating the
spec's invariant H. -/
theorem enforce_view_invariants_spec_H_fails :
    ¬ specInvariantH dagTwoSiblings
        (enforceViewInvariants dagTwoSiblings true viewCheckoutNotHead) := by
  decide

/-- C1, amended: after enforcement (the `view_dirty` path), `head_ids` equals,
as a set, the DAG-heads of the union of the previous `head_ids` and
`public_head_ids` alone; checkouts, branches, tags and git refs do not
participate. -/
theorem enforce_view_invariants_head_ids (d : Dag) (v : StoreView) (x : Nat) :
    x ∈ (enforceViewInvariants d true v).headIds ↔
      x ∈ dagHeads d (v.headIds ++ v.publicHeadIds) := by
  show x ∈ dagHeads d (v.headIds ++ dagHeads d v.publicHeadIds) ↔ _
  exact mem_dagHeads_append_dagHeads

/-! ## `MutableRepo::check_out` (repo.rs:554-578)

Commits carry parents, a tree id and the open flag; the store is an
association list keyed by commit id.  Fresh ids for synthesized commits come
from a counter (id generation is opaque in the backend model). -/

structure CommitData where
  parents : List Nat
  tree : Nat
  isOpen : Bool
deriving DecidableEq

structure CheckoutState where
  store : List (Nat × CommitData)
  heads : List Nat
  checkout : Nat
  abandoned : List Nat
  viewDirty : Bool
  nextId : Nat
deriving DecidableEq

/-- `Store::get_commit`, returning `none` where the Rust side would fail. -/
def getCommit (store : List (Nat × CommitData)) (id : Nat) : Option CommitData :=
  store.lookup id

/-- Modelled from the spec: `Commit::is_empty` (commit.rs is not in src/) —
a commit is empty when it has no tree change versus its parent. -/
def isEmptyCommit (store : List (Nat × CommitData)) (c : CommitData) : Bool :=
  match c.parents with
  | [p] =>
    match getCommit store p with
    | some pd => pd.tree == c.tree
    | none => false
  | _ => false

/-- `MutableRepo::add_head` (repo.rs:601-634): incremental update when all of
the new head's parents are current heads (add the commit, remove its parents
from the heads); otherwise add the head and mark the view dirty. -/
def addHead (st : CheckoutState) (cid : Nat) (cd : CommitData) : CheckoutState :=
  if cd.parents.all (fun p => st.heads.contains p) then
    { st with heads := cid :: st.heads.filter (fun h => !(cd.parents.contains h)) }
  else
    { st with heads := cid :: st.heads, viewDirty := true }

/-- `MutableRepo::write_commit` (repo.rs:489-493): write through the store,
then record the result as a head. -/
def writeCommit (st : CheckoutState) (cd : CommitData) : CheckoutState × Nat :=
  let nid := st.nextId
  let st1 : CheckoutState :=
    { st with store := (nid, cd) :: st.store, nextId := nid + 1 }
  (addHead st1 nid cd, nid)

/-- `MutableRepo::check_out` (repo.rs:554-578).  The commit to check out is
given by id `cid` with data `cd` (the Rust caller passes a whole `Commit`).
Panics (`unwrap` on a missing current checkout, the `assert!` on an open
current checkout) are modelled as `Except.error`.  The synthesized open
commit of the closed case goes through `CommitBuilder::for_open_commit`,
modelled from the spec: single parent `cid`, tree `cd.tree`, open. -/
def checkOut (st : CheckoutState) (cid : Nat) (cd : CommitData) :
    Except String (CheckoutState × Nat) :=
  match getCommit st.store st.checkout with
  | none => Except.error "current checkout commit not in store"
  | some cur =>
    if !cur.isOpen then Except.error "current checkout is closed"
    else
      let st1 :=
        if isEmptyCommit st.store cur then
          { st with abandoned := st.checkout :: st.abandoned }
        else st
      if !cd.isOpen then
        let wr := writeCommit st1 { parents := [cid], tree := cd.tree, isOpen := true }
        Except.ok ({ wr.1 with checkout := wr.2 }, wr.2)
      else
        Except.ok ({ st1 with checkout := cid }, cid)

/-- An open commit (id 2) that is not currently a head; commit 1 is the
current checkout (open, with a tree change versus its parent 0). -/
def checkoutCexState : CheckoutState where
  store := [(0, ⟨[], 0, true⟩), (1, ⟨[0], 1, true⟩), (2, ⟨[0], 2, true⟩)]
  heads := [1]
  checkout := 1
  abandoned := []
  viewDirty := false
  nextId := 3

/-- C7, counterexample: checking out an existing *open* commit sets the
checkout to it but does not add it as a head — after `check_out(2)` the head
set is still `[1]` and commit 2 is not a head, contrary to the claim that the
resulting commit "is added as a head". -/
theorem check_out_open_commit_not_added_as_head :
    ∃ st', checkOut checkoutCexState 2 ⟨[0], 2, true⟩ = Except.ok (st', 2) ∧
      st'.checkout = 2 ∧ st'.heads = [1] ∧ 2 ∉ st'.heads := by
  refine ⟨_, rfl, rfl, rfl, ?_⟩
  decide


theorem writeCommit_spec (st : CheckoutState) (cd : CommitData) :
    (writeCommit st cd).2 = st.nextId ∧
    (writeCommit st cd).1.store = (st.nextId, cd) :: st.store ∧
    (writeCommit st cd).1.abandoned = st.abandoned ∧
    (writeCommit st cd).2 ∈ (writeCommit st cd).1.heads := by
  unfold writeCommit addHead
  dsimp only
  split
  · exact ⟨rfl, rfl, rfl, List.mem_cons_self _ _⟩
  · exact ⟨rfl, rfl, rfl, List.mem_cons_self _ _⟩

/-- C7, amended: under an open current checkout present in the store,
`check_out(commit)` records the current checkout as abandoned exactly when it
is empty; an *open* commit becomes the checkout as-is (store and heads
untouched, in particular it is not added as a head); for a *closed* commit a
new open commit with single parent `commit` and `commit`'s tree is written,
becomes the checkout, and is added as a head. -/
theorem check_out_policy (st : CheckoutState) (cid : Nat) (cd : CommitData)
    (cur : CommitData) (hcur : getCommit st.store st.checkout = some cur)
    (hopen : cur.isOpen = true) :
    ∃ st' rid, checkOut st cid cd = Except.ok (st', rid) ∧
      st'.abandoned = (if isEmptyCommit st.store cur then
        st.checkout :: st.abandoned else st.abandoned) ∧
      st'.checkout = rid ∧
      (cd.isOpen = true → rid = cid ∧ st'.heads = st.heads ∧ st'.store = st.store) ∧
      (cd.isOpen = false → rid = st.nextId ∧
        getCommit st'.store rid = some ⟨[cid], cd.tree, true⟩ ∧ rid ∈ st'.heads) := by
  unfold checkOut
  rw [hcur]
  simp only [hopen, Bool.not_true, Bool.false_eq_true, if_false]
  have hab : (if isEmptyCommit st.store cur then
      { st with abandoned := st.checkout :: st.abandoned } else st).abandoned =
      (if isEmptyCommit st.store cur then st.checkout :: st.abandoned
        else st.abandoned) := by
    by_cases he : isEmptyCommit st.store cur <;> simp [he]
  have hheads : (if isEmptyCommit st.store cur then
      { st with abandoned := st.checkout :: st.abandoned } else st).heads =
      st.heads := by
    by_cases he : isEmptyCommit st.store cur <;> simp [he]
  have hstore : (if isEmptyCommit st.store cur then
      { st with abandoned := st.checkout :: st.abandoned } else st).store =
      st.store := by
    by_cases he : isEmptyCommit st.store cur <;> simp [he]
  have hnext : (if isEmptyCommit st.store cur then
      { st with abandoned := st.checkout :: st.abandoned } else st).nextId =
      st.nextId := by
    by_cases he : isEmptyCommit st.store cur <;> simp [he]
  cases hcd : cd.isOpen with
  | true =>
    simp only [Bool.not_true, Bool.false_eq_true, if_false]
    exact ⟨_, cid, rfl, hab, rfl, fun _ => ⟨rfl, hheads, hstore⟩,
      fun h => absurd h (by decide)⟩
  | false =>
    simp only [Bool.not_false, if_true]
    obtain ⟨hw1, hw2, hw3, hw4⟩ := writeCommit_spec
      (if isEmptyCommit st.store cur then
        { st with abandoned := st.checkout :: st.abandoned } else st)
      ⟨[cid], cd.tree, true⟩
    refine ⟨_, _, rfl, hw3.trans hab, rfl, fun h => absurd h (by decide),
      fun _ => ⟨hw1.trans hnext, ?_, hw4⟩⟩
    show getCommit _ _ = _
    rw [hw2, hw1]
    simp [getCommit, List.lookup]

/-- Witness for the amended C7 policy theorem at a concrete closed commit:
checking out closed commit 2 synthesizes open commit 3 on top of it. -/
theorem check_out_policy_witness :
    ∃ st' rid,
      checkOut checkoutCexState 2 ⟨[0], 2, false⟩ = Except.ok (st', rid) ∧
      st'.abandoned = (if isEmptyCommit checkoutCexState.store ⟨[0], 1, true⟩ then
        checkoutCexState.checkout :: checkoutCexState.abandoned else
        checkoutCexState.abandoned) ∧
      st'.checkout = rid ∧
      ((⟨[0], 2, false⟩ : CommitData).isOpen = true → rid = 2 ∧
        st'.heads = checkoutCexState.heads ∧ st'.store = checkoutCexState.store) ∧
      ((⟨[0], 2, false⟩ : CommitData).isOpen = false →
        rid = checkoutCexState.nextId ∧
        getCommit st'.store rid = some ⟨[2], 2, true⟩ ∧ rid ∈ st'.heads) :=
  check_out_policy checkoutCexState 2 ⟨[0], 2, false⟩ ⟨[0], 1, true⟩ (by decide) rfl

/-- C9: with the current checkout commit present in the store, `check_out`
panics (the `assert!`) exactly when that commit is closed; under the
precondition that it is open the assertion branch is unreachable and the call
returns a result. -/
theorem check_out_assert_open (st : CheckoutState) (cid : Nat) (cd : CommitData)
    (cur : CommitData) (hcur : getCommit st.store st.checkout = some cur) :
    (cur.isOpen = false →
        checkOut st cid cd = Except.error "current checkout is closed") ∧
    (cur.isOpen = true → ∃ r, checkOut st cid cd = Except.ok r) := by
  constructor
  · intro hclosed
    unfold checkOut
    rw [hcur]
    simp [hclosed]
  · intro hopen
    unfold checkOut
    rw [hcur]
    simp only [hopen, Bool.not_true, Bool.false_eq_true, if_false]
    cases hcd : cd.isOpen
    · simp only [Bool.not_false, if_true]
      exact ⟨_, rfl⟩
    · simp only [Bool.not_true, Bool.false_eq_true, if_false]
      exact ⟨_, rfl⟩

/-- Witness for C9 at concrete states: a closed current checkout makes
`check_out` fail with the assertion message, an open one succeeds. -/
theorem check_out_assert_open_witness :
    checkOut ⟨[(1, ⟨[], 0, false⟩)], [1], 1, [], false, 2⟩ 1 ⟨[], 0, true⟩ =
      Except.error "current checkout is closed" ∧
    ∃ r, checkOut checkoutCexState 2 ⟨[0], 2, true⟩ = Except.ok r :=
  ⟨(check_out_assert_open ⟨[(1, ⟨[], 0, false⟩)], [1], 1, [], false, 2⟩ 1
      ⟨[], 0, true⟩ ⟨[], 0, false⟩ (by decide)).1 rfl,
   (check_out_assert_open checkoutCexState 2 ⟨[0], 2, true⟩ ⟨[0], 1, true⟩
      (by decide)).2 rfl⟩

/-! ## `cmd_branch_set` (src/cli/src/commands/branch/set.rs)

Local branch targets are modelled by their list of added commit ids
(`[]` = absent, `[x]` = normal, several = conflicted).  The repo view keeps
branches and an operation log (a finished transaction appends an entry). -/

structure CmdError where
  msg : String
  hint : String
deriving DecidableEq

structure BranchRepo where
  branches : List (String × List Nat)
  opLog : List String
deriving DecidableEq

def getLocalBranch (st : BranchRepo) (name : String) : List Nat :=
  (st.branches.lookup name).getD []

/-- Modelled from the spec: `is_fast_forward` (branch/mod.rs is not in src/) —
a move is a fast-forward when the old target is absent or some added id of the
old target is an ancestor of the new target. -/
def isFastForward (d : Dag) (old : List Nat) (newId : Nat) : Bool :=
  old.isEmpty || old.any (fun a => isAncestorB d a newId)

/-- The per-name validation loop of `cmd_branch_set` (set.rs:50-64): an absent
branch yields the "No such branch" error, a non-fast-forward move without
`--allow-backwards` yields the refusal, both with their hints. -/
def validateBranchNames (d : Dag) (st : BranchRepo) (allowBackwards : Bool)
    (target : Nat) : List String → Option CmdError
  | [] => none
  | n :: rest =>
    if getLocalBranch st n = [] then
      some ⟨"No such branch: " ++ n, "Use `jj branch create` to create it."⟩
    else if !allowBackwards && !(isFastForward d (getLocalBranch st n) target) then
      some ⟨"Refusing to move branch backwards or sideways: " ++ n,
        "Use --allow-backwards to allow it."⟩
    else validateBranchNames d st allowBackwards target rest

def setBranchEntry : List (String × List Nat) → String → List Nat →
    List (String × List Nat)
  | [], n, t => [(n, t)]
  | (k, v) :: rest, n, t =>
    if k = n then (k, t) :: rest else (k, v) :: setBranchEntry rest n t

/-- `cmd_branch_set` (set.rs:40-88): validate every name against the current
view; only if all pass, start a transaction, point every named branch at the
target and finish the transaction (append to the operation log). -/
def cmdBranchSet (d : Dag) (st : BranchRepo) (names : List String)
    (allowBackwards : Bool) (target : Nat) : Except CmdError BranchRepo :=
  match validateBranchNames d st allowBackwards target names with
  | some e => Except.error e
  | none =>
    Except.ok
      { branches := names.foldl (fun bs n => setBranchEntry bs n [target]) st.branches,
        opLog := "point branches to commit" :: st.opLog }

theorem lookup_setBranchEntry (bs : List (String × List Nat)) (n : String)
    (t : List Nat) : (setBranchEntry bs n t).lookup n = some t := by
  induction bs with
  | nil => simp [setBranchEntry, List.lookup]
  | cons kv rest ih =>
    obtain ⟨k, v⟩ := kv
    by_cases hk : k = n
    · subst hk
      simp [setBranchEntry, List.lookup]
    · simp only [setBranchEntry, if_neg hk, List.lookup]
      have hne : (n == k) = false := by
        simp only [beq_eq_false_iff_ne, ne_eq]
        exact fun h => hk h.symm
      rw [hne]
      exact ih

/-- C4: for an existing branch `b` at commit `x`, `branch set b y` with `x`
not an ancestor of `y` fails with "Refusing to move branch backwards or
sideways: b" and the hint naming `--allow-backwards`, while the same command
with `--allow-backwards` succeeds and points `b` at `y`. -/
theorem branch_set_refuses_sideways (d : Dag) (st : BranchRepo) (b : String)
    (x y : Nat) (hb : getLocalBranch st b = [x])
    (hna : ¬ Anc d x y) :
    cmdBranchSet d st [b] false y =
      Except.error ⟨"Refusing to move branch backwards or sideways: " ++ b,
        "Use --allow-backwards to allow it."⟩ ∧
    ∃ st', cmdBranchSet d st [b] true y = Except.ok st' ∧
      getLocalBranch st' b = [y] := by
  have hff : isFastForward d (getLocalBranch st b) y = false := by
    rw [hb]
    simp only [isFastForward, List.isEmpty_cons, Bool.false_or, List.any_eq_false]
    intro a ha
    rw [List.mem_singleton] at ha
    subst ha
    cases hia : isAncestorB d a y
    · simp
    · exact absurd (isAncestorB_iff.1 hia) hna
  constructor
  · unfold cmdBranchSet validateBranchNames
    rw [if_neg (by simp [hb]), hff]
    simp
  · have hv : validateBranchNames d st true y [b] = none := by
      unfold validateBranchNames
      rw [if_neg (by simp [hb])]
      simp [validateBranchNames]
    refine ⟨⟨setBranchEntry st.branches b [y],
        "point branches to commit" :: st.opLog⟩, ?_, ?_⟩
    · unfold cmdBranchSet
      rw [hv]
      rfl
    · unfold getLocalBranch
      rw [lookup_setBranchEntry]
      rfl

/-- Witness for C4: a two-sibling DAG, branch "b" at commit 1, target 2. -/
theorem branch_set_refuses_sideways_witness :
    cmdBranchSet dagTwoSiblings ⟨[("b", [1])], []⟩ ["b"] false 2 =
      Except.error ⟨"Refusing to move branch backwards or sideways: " ++ "b",
        "Use --allow-backwards to allow it."⟩ ∧
    ∃ st', cmdBranchSet dagTwoSiblings ⟨[("b", [1])], []⟩ ["b"] true 2 =
      Except.ok st' ∧ getLocalBranch st' "b" = [2] :=
  branch_set_refuses_sideways dagTwoSiblings ⟨[("b", [1])], []⟩ "b" 1 2 (by decide)
    (fun h => by
      have h1 := isAncestorB_iff.2 h
      have h2 : isAncestorB dagTwoSiblings 1 2 = false := by decide
      rw [h1] at h2
      exact absurd h2 (by decide))

/-- The expected error for the first invalid branch name. -/
def branchSetErrorFor (d : Dag) (st : BranchRepo) (allowBackwards : Bool)
    (target : Nat) (n : String) : CmdError :=
  if getLocalBranch st n = [] then
    ⟨"No such branch: " ++ n, "Use `jj branch create` to create it."⟩
  else
    ⟨"Refusing to move branch backwards or sideways: " ++ n,
      "Use --allow-backwards to allow it."⟩

/-- A name passes validation when its branch exists and the move is permitted. -/
def branchNameValid (d : Dag) (st : BranchRepo) (allowBackwards : Bool)
    (target : Nat) (n : String) : Prop :=
  getLocalBranch st n ≠ [] ∧
    (allowBackwards = true ∨ isFastForward d (getLocalBranch st n) target = true)

instance (d : Dag) (st : BranchRepo) (allowBackwards : Bool) (target : Nat)
    (n : String) : Decidable (branchNameValid d st allowBackwards target n) := by
  unfold branchNameValid
  exact instDecidableAnd

/-- C10: `cmd_branch_set` validates every name against the original view
before starting any transaction.  If some name fails validation (absent
branch, or refused move) then — even when all earlier names are valid — the
command returns the error for the first failing name, an absent branch giving
"No such branch" with the branch-create hint; no transaction result is
produced, so the view and operation log are untouched. -/
theorem branch_set_validates_before_transaction (d : Dag) (st : BranchRepo)
    (allowBackwards : Bool) (target : Nat) (pre post : List String) (n : String)
    (hpre : ∀ m ∈ pre, branchNameValid d st allowBackwards target m)
    (hn : ¬ branchNameValid d st allowBackwards target n) :
    cmdBranchSet d st (pre ++ n :: post) allowBackwards target =
      Except.error (branchSetErrorFor d st allowBackwards target n) := by
  unfold cmdBranchSet
  suffices H : validateBranchNames d st allowBackwards target (pre ++ n :: post) =
      some (branchSetErrorFor d st allowBackwards target n) by
    rw [H]
  induction pre with
  | nil =>
    simp only [List.nil_append]
    unfold validateBranchNames branchNameValid at *
    push_neg at hn
    by_cases habs : getLocalBranch st n = []
    · simp [habs, branchSetErrorFor]
    · obtain ⟨hallow, hff⟩ := hn habs
      rw [if_neg habs]
      cases allowBackwards
      · rw [Bool.not_false, Bool.true_and,
          show isFastForward d (getLocalBranch st n) target = false from
            Bool.eq_false_iff.2 hff]
        simp [branchSetErrorFor, habs]
      · exact absurd rfl hallow
  | cons m pre ih =>
    have hm := hpre m (List.mem_cons_self _ _)
    unfold branchNameValid at hm
    obtain ⟨habs, hok⟩ := hm
    simp only [List.cons_append]
    unfold validateBranchNames
    rw [if_neg habs]
    have hcond : (!allowBackwards &&
        !(isFastForward d (getLocalBranch st m) target)) = false := by
      rcases hok with rfl | hff
      · simp
      · simp [hff]
    rw [hcond]
    simp only [Bool.false_eq_true, if_false]
    exact ih fun m' hm' => hpre m' (List.mem_cons_of_mem _ hm')

/-- Witness for C10: the first name is a valid branch, the second is absent;
the command fails with "No such branch" for the absent one. -/
theorem branch_set_validates_before_transaction_witness :
    cmdBranchSet dagTwoSiblings ⟨[("b", [1])], []⟩ (["b"] ++ "c" :: [])
        true 1 =
      Except.error (branchSetErrorFor dagTwoSiblings ⟨[("b", [1])], []⟩ true 1 "c") :=
  branch_set_validates_before_transaction dagTwoSiblings ⟨[("b", [1])], []⟩
    true 1 ["b"] [] "c"
    (by intro m hm; rw [List.mem_singleton] at hm; subst hm; exact ⟨by decide, Or.inl rfl⟩)
    (by intro h; exact h.1 (by decide))

/-! ## The parallelize transformation

Modelled from the spec: §4.H (cli/src/commands/parallelize.rs is not in
src/).  The new-parents computation substitutes, recursively, each parent
that is itself a target by that parent's new parents; an outside child of a
target is reparented onto all of that parent's ancestors within the target
set.  This is the behavior pinned down by the repository's own tests
(src/cli/tests/test_parallelize_command.rs), which contradict the spec's rule
2 (union over roots) on multi-root targets and its rule 5 (the
"heads have different children" error). -/

def liftFuel (d : Dag) (T : List Nat) : Nat → Nat → List Nat
  | 0, t => d.parents t
  | f + 1, t => (d.parents t).flatMap (fun p => if p ∈ T then liftFuel d T f p else [p])

/-- New parents of a target commit: replace each parent inside `T` by that
parent's new parents, keep parents outside `T`. -/
def liftParents (d : Dag) (T : List Nat) (t : Nat) : List Nat := liftFuel d T t t

/-- The ancestors of `p` that lie in the target set (including `p`), in
CommitId order. -/
def targetAncestorsIncl (d : Dag) (T : List Nat) (p : Nat) : List Nat :=
  (sortNat T).filter (fun a => isAncestorB d a p)

/-- Parent assignment after `parallelize(T)`: targets get their lifted
parents; an outside child of a target gets each target parent replaced by
that parent's target-ancestors; all other commits are unchanged. -/
def parallelizeParents (d : Dag) (T : List Nat) (c : Nat) : List Nat :=
  if c ∈ T then dedupFirst (liftParents d T c)
  else if (d.parents c).any (fun p => decide (p ∈ T)) then
    dedupFirst ((d.parents c).flatMap
      (fun p => if p ∈ T then targetAncestorsIncl d T p else [p]))
  else d.parents c

/-- The command's report over the finite universe of existing commits:
"Nothing changed." exactly when no commit's parents change. -/
def parallelizeMessage (d : Dag) (T univ : List Nat) : Option String :=
  if univ.all (fun c => parallelizeParents d T c == d.parents c) then
    some "Nothing changed."
  else none

theorem parents_zero (d : Dag) : d.parents 0 = [] := by
  cases h : d.parents 0 with
  | nil => rfl
  | cons p ps =>
    exact absurd (d.wf 0 p (h ▸ List.mem_cons_self _ _)) (Nat.not_lt_zero p)

theorem liftFuel_invariant (d : Dag) (T : List Nat) :
    ∀ t f g, t ≤ f → t ≤ g → liftFuel d T f t = liftFuel d T g t := by
  intro t
  induction t using Nat.strong_induction_on with
  | _ t ih =>
    intro f g hf hg
    match t, ih with
    | 0, _ =>
      have hz : ∀ h, liftFuel d T h 0 = [] := by
        intro h
        cases h with
        | zero => exact parents_zero d
        | succ h => simp [liftFuel, parents_zero d]
      rw [hz f, hz g]
    | t + 1, ih =>
      match f, g, hf, hg with
      | f + 1, g + 1, hf, hg =>
        show (d.parents (t + 1)).flatMap _ = (d.parents (t + 1)).flatMap _
        apply flatMap_congr_mem
        intro p hp
        by_cases hpT : p ∈ T
        · simp only [hpT, if_true]
          have hpt : p < t + 1 := d.wf _ _ hp
          exact ih p hpt f g (by omega) (by omega)
        · simp [hpT]

theorem liftParents_unfold (d : Dag) (T : List Nat) (t : Nat) :
    liftParents d T t = (d.parents t).flatMap
      (fun p => if p ∈ T then liftParents d T p else [p]) := by
  unfold liftParents
  rw [liftFuel_invariant d T t t (t + 1) (Nat.le_refl t) (Nat.le_succ t)]
  show (d.parents t).flatMap _ = _
  apply flatMap_congr_mem
  intro p hp
  by_cases hpT : p ∈ T
  · simp only [hpT, if_true]
    exact liftFuel_invariant d T p t p (Nat.le_of_lt (d.wf t p hp)) (Nat.le_refl p)
  · simp [hpT]

/-- No target is a (reflexive) ancestor of another, distinct, target. -/
def noTargetAncestryB (d : Dag) (T : List Nat) : Bool :=
  T.all (fun a => T.all (fun b => a == b || !(isAncestorB d a b)))

theorem noTargetAncestryB_spec {d : Dag} {T : List Nat}
    (h : noTargetAncestryB d T = true) :
    ∀ a ∈ T, ∀ b ∈ T, a ≠ b → ¬ Anc d a b := by
  intro a ha b hb hne hanc
  have h1 := List.all_eq_true.1 h a ha
  have h2 := List.all_eq_true.1 h1 b hb
  rw [Bool.or_eq_true] at h2
  rcases h2 with h3 | h3
  · exact hne (beq_iff_eq.1 h3)
  · rw [Bool.not_eq_true'] at h3
    rw [isAncestorB_iff.2 hanc] at h3
    cases h3

/-- C3: when the targets split into several connected components and no
target is an ancestor of another, `parallelize(T)` is a no-op — every
commit keeps its parents and the command reports "Nothing changed.".
(With no ancestry among targets the components are singletons, so splitting
into several components amounts to having at least two targets.) -/
theorem parallelize_disconnected_targets_noop (d : Dag) (T univ : List Nat)
    (hnd : T.Nodup) (hlen : 2 ≤ T.length)
    (hna : noTargetAncestryB d T = true) :
    (∀ c, parallelizeParents d T c = d.parents c) ∧
    parallelizeMessage d T univ = some "Nothing changed." := by
  have hna' := noTargetAncestryB_spec hna
  have main : ∀ c, parallelizeParents d T c = d.parents c := by
    intro c
    unfold parallelizeParents
    by_cases hcT : c ∈ T
    · rw [if_pos hcT, liftParents_unfold]
      have hall : ∀ p ∈ d.parents c,
          (if p ∈ T then liftParents d T p else [p]) = [p] := by
        intro p hp
        have hpc : p ≠ c := Nat.ne_of_lt (d.wf c p hp)
        have hpT : p ∉ T := fun hpT =>
          hna' p hpT c hcT hpc (Anc.step (Anc.refl p) hp)
        simp [hpT]
      rw [flatMap_singletons _ _ hall, dedupFirst_eq_self (d.nodup c)]
    · rw [if_neg hcT]
      by_cases hany : (d.parents c).any (fun p => decide (p ∈ T))
      · rw [if_pos hany]
        have hall : ∀ p ∈ d.parents c,
            (if p ∈ T then targetAncestorsIncl d T p else [p]) = [p] := by
          intro p hp
          by_cases hpT : p ∈ T
          · simp only [hpT, if_true]
            unfold targetAncestorsIncl
            apply filter_eq_singleton (sortNat_nodup hnd) (mem_sortNat.2 hpT)
            intro a ha
            rw [mem_sortNat] at ha
            constructor
            · intro hab
              by_contra hne
              exact hna' a ha p hpT hne (isAncestorB_iff.1 hab)
            · rintro rfl
              exact isAncestorB_iff.2 (Anc.refl a)
          · simp [hpT]
        rw [flatMap_singletons _ _ hall, dedupFirst_eq_self (d.nodup c)]
      · rw [if_neg hany]
  refine ⟨main, ?_⟩
  unfold parallelizeMessage
  rw [if_pos]
  exact List.all_eq_true.2 fun c _ => beq_iff_eq.2 (main c)

/-- Two disconnected chains 1→2 and 3→4; the targets 1 and 3 are unrelated. -/
def twoChainsDag : Dag := dagOfList [(1, [0]), (2, [1]), (3, [0]), (4, [3])]

/-- Witness for C3 on two disconnected unrelated targets. -/
theorem parallelize_disconnected_targets_noop_witness :
    parallelizeParents twoChainsDag [1, 3] 2 = twoChainsDag.parents 2 ∧
    parallelizeMessage twoChainsDag [1, 3] [0, 1, 2, 3, 4] =
      some "Nothing changed." :=
  ⟨(parallelize_disconnected_targets_noop twoChainsDag [1, 3] [0, 1, 2, 3, 4]
      (by decide) (by decide) (by decide)).1 2,
   (parallelize_disconnected_targets_noop twoChainsDag [1, 3] [0, 1, 2, 3, 4]
      (by decide) (by decide) (by decide)).2⟩

/-- The linear chain 1→2→3→4→5→6 on top of the root commit 0. -/
def chainDag : Dag :=
  dagOfList [(1, [0]), (2, [1]), (3, [2]), (4, [3]), (5, [4]), (6, [5])]

/-- The spec's §4.H rule 2, following its words: for every target, the new
parents are the union over the roots of `T` of the roots' parents minus `T`,
ordered by CommitId. -/
def specUnionRootParents (d : Dag) (T : List Nat) : List Nat :=
  sortNat (dedupFirst
    ((T.filter (fun t => !((d.parents t).any (fun p => decide (p ∈ T))))).flatMap
      (fun r => (d.parents r).filter (fun p => decide (p ∉ T)))))

/-- The scenario of test_parallelize_head_is_a_merge: chain 1→2→3, chain
4→5, and a merge commit 6 with parents 3 and 5; targets are 2, 3, 6. -/
def mergeHeadDag : Dag :=
  dagOfList [(1, [0]), (2, [1]), (3, [2]), (4, [0]), (5, [4]), (6, [3, 5])]

/-- C5, counterexample: on the merge-head scenario the code parents target 6
on [1, 5] (its lifted parents, keeping the non-target parent 5), not on the
spec's union-over-roots [1]; so "every t ∈ T has new parents equal to the
union over the roots of T of parents(r) minus T" fails. -/
theorem parallelize_union_rule_fails :
    parallelizeParents mergeHeadDag [2, 3, 6] 6 = [1, 5] ∧
    specUnionRootParents mergeHeadDag [2, 3, 6] = [1] ∧
    parallelizeParents mergeHeadDag [2, 3, 6] 6 ≠
      specUnionRootParents mergeHeadDag [2, 3, 6] := by
  decide

/-- C5, amended: a target's new parents substitute, recursively, each parent
inside `T` by that parent's new parents (parents outside `T` are kept,
duplicates dropped).  When `T` has a single root — every non-root target's
parents lie wholly inside `T` — every target therefore ends up with exactly
the root's parents; in particular for the linear chain 1→2→3→4→5→6 with
`parallelize(1..4)`, commits 1,2,3,4 are all parented on the root's parent
[0], 5 on [1,2,3,4] and 6 on [5] (change identity is untouched: commits are
rewritten in place, keyed by the same id). -/
theorem parallelize_single_root_and_chain :
    (∀ (d : Dag) (T : List Nat) (r : Nat), r ∈ T →
      (∀ p ∈ d.parents r, p ∉ T) →
      (∀ t ∈ T, t ≠ r → d.parents t ≠ [] ∧ ∀ p ∈ d.parents t, p ∈ T) →
      ∀ t ∈ T, ∀ x, (x ∈ parallelizeParents d T t ↔ x ∈ d.parents r)) ∧
    (parallelizeParents chainDag [1, 2, 3, 4] 1 = [0] ∧
     parallelizeParents chainDag [1, 2, 3, 4] 2 = [0] ∧
     parallelizeParents chainDag [1, 2, 3, 4] 3 = [0] ∧
     parallelizeParents chainDag [1, 2, 3, 4] 4 = [0] ∧
     parallelizeParents chainDag [1, 2, 3, 4] 5 = [1, 2, 3, 4] ∧
     parallelizeParents chainDag [1, 2, 3, 4] 6 = [5]) := by
  constructor
  · intro d T r hr hroot hrest
    have lift : ∀ t, t ∈ T → ∀ x, (x ∈ liftParents d T t ↔ x ∈ d.parents r) := by
      intro t
      induction t using Nat.strong_induction_on with
      | _ t ih =>
        intro ht x
        rw [liftParents_unfold, List.mem_flatMap]
        by_cases htr : t = r
        · subst htr
          constructor
          · rintro ⟨p, hp, hx⟩
            rw [if_neg (hroot p hp)] at hx
            rw [List.mem_singleton] at hx
            exact hx ▸ hp
          · intro hx
            exact ⟨x, hx, by rw [if_neg (hroot x hx)]; exact List.mem_singleton.2 rfl⟩
        · obtain ⟨hne, hsub⟩ := hrest t ht htr
          constructor
          · rintro ⟨p, hp, hx⟩
            have hpT := hsub p hp
            rw [if_pos hpT] at hx
            exact (ih p (d.wf t p hp) hpT x).1 hx
          · intro hx
            obtain ⟨p, hp⟩ := List.exists_mem_of_ne_nil _ hne
            have hpT := hsub p hp
            exact ⟨p, hp, by
              rw [if_pos hpT]
              exact (ih p (d.wf t p hp) hpT x).2 hx⟩
    intro t ht x
    unfold parallelizeParents
    rw [if_pos ht, mem_dedupFirst]
    exact lift t ht x
  · decide

/-- The scenario of test_parallelize_multiple_heads_with_different_children:
chain 1→2→3, chain 4→5→6, working copy 7 on 6; targets are 1, 2, 4, 5, so
the target heads 2 and 5 have the different outside children 3 and 6. -/
def diffChildrenDag : Dag :=
  dagOfList [(1, [0]), (2, [1]), (3, [2]), (4, [0]), (5, [4]), (6, [5]), (7, [6])]

/-- C6, counterexample: with two target heads (2 and 5) whose outside
children (3 and 6) differ, the operation does not fail — it rewrites the
DAG (so no "Nothing changed." either): each child is reparented onto its
target ancestors, exactly as the repository's test records. -/
theorem parallelize_different_children_no_error :
    parallelizeParents diffChildrenDag [1, 2, 4, 5] 3 = [1, 2] ∧
    parallelizeParents diffChildrenDag [1, 2, 4, 5] 6 = [4, 5] ∧
    parallelizeMessage diffChildrenDag [1, 2, 4, 5] [0, 1, 2, 3, 4, 5, 6, 7] =
      none := by
  decide

/-- The scenario of test_parallelize_multiple_heads_with_and_without_children:
commits 1→2 and 1→3 with targets 1 and 2 — of the target heads, only 2 lacks
children, only 1 has the child 3. -/
def mixedHeadsDag : Dag := dagOfList [(1, [0]), (2, [1]), (3, [1])]

/-- C6, amended: parallelize permits target heads with differing outside
children; it succeeds, reparenting each outside child of a target onto all of
that target's ancestors inside T (keeping non-target parents), while targets
themselves take their lifted parents.  Heads without children are likewise
permitted (it also succeeds when only one head has children). -/
theorem parallelize_heads_children_behavior :
    (parallelizeParents diffChildrenDag [1, 2, 4, 5] 1 = [0] ∧
     parallelizeParents diffChildrenDag [1, 2, 4, 5] 2 = [0] ∧
     parallelizeParents diffChildrenDag [1, 2, 4, 5] 4 = [0] ∧
     parallelizeParents diffChildrenDag [1, 2, 4, 5] 5 = [0] ∧
     parallelizeParents diffChildrenDag [1, 2, 4, 5] 3 = [1, 2] ∧
     parallelizeParents diffChildrenDag [1, 2, 4, 5] 6 = [4, 5] ∧
     parallelizeParents diffChildrenDag [1, 2, 4, 5] 7 = [6]) ∧
    (parallelizeParents mixedHeadsDag [1, 2] 1 = [0] ∧
     parallelizeParents mixedHeadsDag [1, 2] 2 = [0] ∧
     parallelizeParents mixedHeadsDag [1, 2] 3 = [1]) := by
  decide

/-! ## Conflict materialization and parsing

Modelled from the spec: §4.I and §6 (lib/src/conflicts.rs is not in src/).
A file is a list of lines, a line a list of characters.  A conflicted file
value is `N` sides and `N-1` bases; the whole file is materialized as one
snapshot-style hunk.  The marker length is 7, lengthened past any line of the
conflict's contents that itself starts with a marker-like run (the repository
test test_resolve_long_conflict_markers pins length 11 for a content run of
7, i.e. longest qualifying run + 4). -/

def markerChars : List Char := ['<', '>', '+', '-', '%', '|', '=']

/-- Length of the run of `c` at the start of a line. -/
def runLen (c : Char) (line : List Char) : Nat :=
  (line.takeWhile (fun ch => ch == c)).length

/-- The marker-like run at the start of a line: the run of its first
character when that is a marker character. -/
def lineMarkerRun (line : List Char) : Nat :=
  match line with
  | [] => 0
  | c :: _ => if c ∈ markerChars then runLen c line else 0

/-- A line counts toward lengthening the markers when its run could itself be
parsed as a conflict marker (length at least 7). -/
def countedRun (line : List Char) : Nat :=
  if 7 ≤ lineMarkerRun line then lineMarkerRun line else 0

def maxCountedRun (contents : List (List Char)) : Nat :=
  listMax (contents.map countedRun)

/-- The chosen marker length: 7, or the longest marker-like content run
plus 4, whichever is larger. -/
def chooseMarkerLen (contents : List (List Char)) : Nat :=
  max (maxCountedRun contents + 4) 7

def mkMarkerLine (c : Char) (L : Nat) (suffix : List Char) : List Char :=
  List.replicate L c ++ suffix

def sideSuffix (i : Nat) : List Char := ' ' :: ("Contents of side #" ++ toString i).data

def baseSuffix : List Char := ' ' :: "Contents of base".data

def hunkHeaderSuffix : List Char := ' ' :: "Conflict 1 of 1".data

def hunkEndSuffix : List Char := ' ' :: "Conflict 1 of 1 ends".data

/-- The body of a snapshot-style hunk: each side under a `+` marker line,
each base under a `-` marker line, interleaved side-base-side-…-side. -/
def matSections (L : Nat) : Nat → List (List (List Char)) → List (List (List Char)) →
    List (List Char)
  | i, s :: ss, b :: bs =>
    (mkMarkerLine '+' L (sideSuffix i) :: s) ++
      ((mkMarkerLine '-' L baseSuffix :: b) ++ matSections L (i + 1) ss bs)
  | i, s :: _, [] => mkMarkerLine '+' L (sideSuffix i) :: s
  | _, [], _ => []

/-- Materialize a conflicted file value (sides and bases) as a text file with
conflict markers, snapshot style, at the chosen marker length. -/
def materializeConflict (sides bases : List (List (List Char))) : List (List Char) :=
  let L := chooseMarkerLen ((sides ++ bases).flatten)
  mkMarkerLine '<' L hunkHeaderSuffix ::
    (matSections L 1 sides bases ++ [mkMarkerLine '>' L hunkEndSuffix])

/-- Recognize a section header: a run of exactly `L` of `+` (a side) or `-`
(a base) at the start of the line. -/
def headerChar (L : Nat) (line : List Char) : Option Char :=
  if runLen '+' line == L then some '+'
  else if runLen '-' line == L then some '-'
  else none

/-- Split the hunk body into sections, each a header tag with the content
lines following it up to the next header. -/
def splitSectionsF (L : Nat) : Nat → List (List Char) →
    Option (List (Char × List (List Char)))
  | _, [] => some []
  | 0, _ :: _ => none
  | f + 1, line :: rest =>
    match headerChar L line with
    | none => none
    | some c =>
      match splitSectionsF L f (rest.dropWhile (fun l => (headerChar L l).isNone)) with
      | none => none
      | some secs =>
        some ((c, rest.takeWhile (fun l => (headerChar L l).isNone)) :: secs)

/-- Validate the side/base interleaving and return sides and bases. -/
def deinterleave : List (Char × List (List Char)) →
    Option (List (List (List Char)) × List (List (List Char)))
  | [('+', s)] => some ([s], [])
  | ('+', s) :: ('-', b) :: rest =>
    match deinterleave rest with
    | some (ss, bs) => some (s :: ss, b :: bs)
    | none => none
  | _ => none

/-- Parse a materialized conflict at marker length `L`: a `<` marker line, a
section body, and a `>` marker line; inverts materialization. -/
def parseConflict (L : Nat) (lines : List (List Char)) :
    Option (List (List (List Char)) × List (List (List Char))) :=
  match lines with
  | [] => none
  | first :: rest =>
    if runLen '<' first == L then
      match rest.getLast? with
      | none => none
      | some lastLine =>
        if runLen '>' lastLine == L then
          match splitSectionsF L (rest.length + 1) rest.dropLast with
          | none => none
          | some secs => deinterleave secs
        else none
    else none

theorem runLen_replicate_append {c : Char} {suffix : List Char}
    (h : ∀ d, suffix.head? = some d → ¬ d = c) :
    ∀ L, runLen c (List.replicate L c ++ suffix) = L := by
  intro L
  induction L with
  | zero =>
    rw [List.replicate, List.nil_append]
    cases suffix with
    | nil => rfl
    | cons d t =>
      have hd : (d == c) = false := by
        have := h d rfl
        simp [this]
      simp [runLen, List.takeWhile_cons, hd]
  | succ L ih =>
    rw [List.replicate_succ, List.cons_append]
    unfold runLen
    rw [List.takeWhile_cons]
    simp only [beq_self_eq_true, if_true, List.length_cons]
    unfold runLen at ih
    rw [ih]

theorem runLen_replicate_other {c c' : Char} (hcc : (c' == c) = false)
    {L : Nat} (hL : 1 ≤ L) (suffix : List Char) :
    runLen c (List.replicate L c' ++ suffix) = 0 := by
  match L, hL with
  | L + 1, _ =>
    rw [List.replicate_succ, List.cons_append]
    unfold runLen
    rw [List.takeWhile_cons]
    simp [hcc]

theorem countedRun_le_max {contents : List (List Char)} {l : List Char}
    (hl : l ∈ contents) : countedRun l ≤ maxCountedRun contents :=
  le_listMax (List.mem_map_of_mem countedRun hl)

/-- Any marker-character run at the start of a content line is strictly
shorter than the chosen marker length. -/
theorem content_run_lt {contents : List (List Char)} {l : List Char}
    (hl : l ∈ contents) {c : Char} (hc : c ∈ markerChars) :
    runLen c l < chooseMarkerLen contents := by
  have h7 : 7 ≤ chooseMarkerLen contents := le_max_right _ _
  cases hline : l with
  | nil =>
    have : runLen c [] = 0 := rfl
    omega
  | cons d t =>
    by_cases hdc : (d == c) = true
    · have hdc' : d = c := beq_iff_eq.1 hdc
      subst hdc'
      have hrun : runLen d (d :: t) = lineMarkerRun (d :: t) := by
        simp [lineMarkerRun, hc]
      rw [hrun]
      by_cases h7r : 7 ≤ lineMarkerRun (d :: t)
      · have hcr : countedRun (d :: t) = lineMarkerRun (d :: t) := by
          simp [countedRun, h7r]
        have := countedRun_le_max (hline ▸ hl)
        rw [hcr] at this
        have hmax : maxCountedRun contents + 4 ≤ chooseMarkerLen contents :=
          le_max_left _ _
        omega
      · omega
    · have : runLen c (d :: t) = 0 := by
        unfold runLen
        rw [List.takeWhile_cons]
        simp [hdc]
      omega

theorem headerChar_side (L : Nat) (hL : 7 ≤ L) (i : Nat) :
    headerChar L (mkMarkerLine '+' L (sideSuffix i)) = some '+' := by
  unfold headerChar
  have h : runLen '+' (mkMarkerLine '+' L (sideSuffix i)) = L := by
    apply runLen_replicate_append
    intro d hd
    have : (' ' : Char) = d := Option.some.inj hd
    subst this
    decide
  rw [h]
  simp

theorem headerChar_base (L : Nat) (hL : 7 ≤ L) :
    headerChar L (mkMarkerLine '-' L baseSuffix) = some '-' := by
  unfold headerChar
  have h0 : runLen '+' (mkMarkerLine '-' L baseSuffix) = 0 :=
    runLen_replicate_other (by decide) (by omega) _
  have h : runLen '-' (mkMarkerLine '-' L baseSuffix) = L := by
    apply runLen_replicate_append
    intro d hd
    have : (' ' : Char) = d := Option.some.inj hd
    subst this
    decide
  rw [h0, h]
  have h0L : ((0 : Nat) == L) = false := by
    rw [beq_eq_false_iff_ne]
    omega
  simp [h0L]

theorem headerChar_content {contents : List (List Char)} {l : List Char}
    (hl : l ∈ contents) : headerChar (chooseMarkerLen contents) l = none := by
  unfold headerChar
  have h1 := content_run_lt hl (show '+' ∈ markerChars by decide)
  have h2 := content_run_lt hl (show '-' ∈ markerChars by decide)
  have e1 : (runLen '+' l == chooseMarkerLen contents) = false := by
    rw [beq_eq_false_iff_ne]
    omega
  have e2 : (runLen '-' l == chooseMarkerLen contents) = false := by
    rw [beq_eq_false_iff_ne]
    omega
  simp [e1, e2]

theorem takeWhile_append_stop {α : Type} {p : α → Bool} {l1 : List α} {a : α}
    (l2 : List α) (h1 : ∀ x ∈ l1, p x = true) (h2 : p a = false) :
    (l1 ++ a :: l2).takeWhile p = l1 ∧ (l1 ++ a :: l2).dropWhile p = a :: l2 := by
  induction l1 with
  | nil => simp [List.takeWhile_cons, List.dropWhile_cons, h2]
  | cons x xs ih =>
    have hx := h1 x (List.mem_cons_self _ _)
    obtain ⟨iht, ihd⟩ := ih fun y hy => h1 y (List.mem_cons_of_mem _ hy)
    constructor
    · rw [List.cons_append, List.takeWhile_cons, hx]
      simp [iht]
    · rw [List.cons_append, List.dropWhile_cons, hx]
      simpa using ihd

theorem takeWhile_all {α : Type} {p : α → Bool} {l : List α}
    (h : ∀ x ∈ l, p x = true) :
    l.takeWhile p = l ∧ l.dropWhile p = [] := by
  induction l with
  | nil => exact ⟨rfl, rfl⟩
  | cons x xs ih =>
    have hx := h x (List.mem_cons_self _ _)
    obtain ⟨iht, ihd⟩ := ih fun y hy => h y (List.mem_cons_of_mem _ hy)
    constructor
    · rw [List.takeWhile_cons, hx]
      simp [iht]
    · rw [List.dropWhile_cons, hx]
      simpa using ihd

/-- The sections that materialization produces, as tagged contents. -/
def interleaveSections : List (List (List Char)) → List (List (List Char)) →
    List (Char × List (List Char))
  | s :: ss, b :: bs => ('+', s) :: ('-', b) :: interleaveSections ss bs
  | s :: _, [] => [('+', s)]
  | [], _ => []

theorem deinterleave_interleave :
    ∀ (bs ss : List (List (List Char))), ss.length = bs.length + 1 →
      deinterleave (interleaveSections ss bs) = some (ss, bs) := by
  intro bs
  induction bs with
  | nil =>
    intro ss hss
    match ss, hss with
    | [s], _ => rfl
  | cons b bs ih =>
    intro ss hss
    match ss, hss with
    | s :: ss, hss =>
      have hss' : ss.length = bs.length + 1 := by simpa using hss
      match ss, hss' with
      | s' :: ss, hss' =>
        show deinterleave (('+', s) :: ('-', b) ::
          interleaveSections (s' :: ss) bs) = _
        obtain ⟨hd, tl, hrest⟩ : ∃ hd tl,
            interleaveSections (s' :: ss) bs = hd :: tl := by
          cases bs <;> exact ⟨_, _, rfl⟩
        rw [hrest]
        show (match deinterleave (hd :: tl) with
          | some (ss', bs') => some (s :: ss', b :: bs')
          | none => none) = _
        rw [← hrest, ih (s' :: ss) hss']

theorem splitSectionsF_nil (L f : Nat) : splitSectionsF L f [] = some [] := by
  cases f <;> rfl

theorem matSections_head (L i : Nat) (ss bs : List (List (List Char)))
    (hss : ss ≠ []) :
    ∃ tl, matSections L i ss bs = mkMarkerLine '+' L (sideSuffix i) :: tl := by
  match ss, bs with
  | s :: ss, b :: bs => exact ⟨_, rfl⟩
  | s :: ss, [] => exact ⟨_, rfl⟩
  | [], _ => exact absurd rfl hss

theorem matSections_length (L : Nat) :
    ∀ (bs ss : List (List (List Char))) (i : Nat), ss.length = bs.length + 1 →
      2 * ss.length ≤ (matSections L i ss bs).length + 1 := by
  intro bs
  induction bs with
  | nil =>
    intro ss i h
    match ss, h with
    | [s], _ =>
      show 2 * 1 ≤ (mkMarkerLine '+' L (sideSuffix i) :: s).length + 1
      simp
  | cons b bs ih =>
    intro ss i h
    match ss, h with
    | s :: ss, h =>
      have h' : ss.length = bs.length + 1 := by simpa using h
      have := ih ss (i + 1) h'
      show 2 * (ss.length + 1) ≤
        ((mkMarkerLine '+' L (sideSuffix i) :: s) ++
          ((mkMarkerLine '-' L baseSuffix :: b) ++
            matSections L (i + 1) ss bs)).length + 1
      simp only [List.length_append, List.length_cons]
      omega

theorem splitSections_mat {contents : List (List Char)} :
    ∀ (bs ss : List (List (List Char))) (i f : Nat),
      ss.length = bs.length + 1 →
      (∀ s ∈ ss, ∀ l ∈ s, l ∈ contents) →
      (∀ b ∈ bs, ∀ l ∈ b, l ∈ contents) →
      2 * ss.length ≤ f →
      splitSectionsF (chooseMarkerLen contents) f
          (matSections (chooseMarkerLen contents) i ss bs) =
        some (interleaveSections ss bs) := by
  have hL : 7 ≤ chooseMarkerLen contents := le_max_right _ _
  intro bs
  induction bs with
  | nil =>
    intro ss i f hlen hss _ hf
    match ss, hlen with
    | [s], _ =>
      obtain ⟨f, rfl⟩ : ∃ f', f = f' + 1 := ⟨f - 1, by omega⟩
      show splitSectionsF (chooseMarkerLen contents) (f + 1)
        (mkMarkerLine '+' (chooseMarkerLen contents) (sideSuffix i) :: s) = _
      have hcont : ∀ l ∈ s,
          ((fun l => (headerChar (chooseMarkerLen contents) l).isNone) l) = true := by
        intro l hl
        show (headerChar (chooseMarkerLen contents) l).isNone = true
        rw [headerChar_content (hss s (List.mem_singleton.2 rfl) l hl)]
        rfl
      obtain ⟨ht, hd⟩ := takeWhile_all hcont
      unfold splitSectionsF
      rw [headerChar_side _ hL i]
      show (match splitSectionsF (chooseMarkerLen contents) f
          (s.dropWhile fun l => (headerChar (chooseMarkerLen contents) l).isNone) with
        | none => none
        | some secs => some (('+',
            s.takeWhile fun l => (headerChar (chooseMarkerLen contents) l).isNone)
          :: secs)) = _
      rw [hd, ht, splitSectionsF_nil]
      rfl
  | cons b bs ih =>
    intro ss i f hlen hss hbs hf
    match ss, hlen with
    | s :: ss, hlen =>
      have hlen' : ss.length = bs.length + 1 := by simpa using hlen
      have hssne : ss ≠ [] := by
        intro h
        rw [h] at hlen'
        simp at hlen'
      obtain ⟨tl, htl⟩ := matSections_head (chooseMarkerLen contents) (i + 1) ss bs hssne
      obtain ⟨f, rfl⟩ : ∃ f', f = f' + 2 := ⟨f - 2, by
        have : (s :: ss).length = ss.length + 1 := rfl
        omega⟩
      have hconts : ∀ l ∈ s,
          ((fun l => (headerChar (chooseMarkerLen contents) l).isNone) l) = true := by
        intro l hl
        show (headerChar (chooseMarkerLen contents) l).isNone = true
        rw [headerChar_content (hss s (List.mem_cons_self _ _) l hl)]
        rfl
      have hcontb : ∀ l ∈ b,
          ((fun l => (headerChar (chooseMarkerLen contents) l).isNone) l) = true := by
        intro l hl
        show (headerChar (chooseMarkerLen contents) l).isNone = true
        rw [headerChar_content (hbs b (List.mem_cons_self _ _) l hl)]
        rfl
      have hbasehdr : ((fun l => (headerChar (chooseMarkerLen contents) l).isNone)
          (mkMarkerLine '-' (chooseMarkerLen contents) baseSuffix)) = false := by
        show (headerChar (chooseMarkerLen contents)
          (mkMarkerLine '-' (chooseMarkerLen contents) baseSuffix)).isNone = false
        rw [headerChar_base _ hL]
        rfl
      have hsidehdr : ((fun l => (headerChar (chooseMarkerLen contents) l).isNone)
          (mkMarkerLine '+' (chooseMarkerLen contents) (sideSuffix (i + 1)))) = false := by
        show (headerChar (chooseMarkerLen contents)
          (mkMarkerLine '+' (chooseMarkerLen contents) (sideSuffix (i + 1)))).isNone = false
        rw [headerChar_side _ hL]
        rfl
      obtain ⟨ht1, hd1⟩ := takeWhile_append_stop
        (b ++ matSections (chooseMarkerLen contents) (i + 1) ss bs) hconts hbasehdr
      have hrest2 : b ++ matSections (chooseMarkerLen contents) (i + 1) ss bs =
          b ++ mkMarkerLine '+' (chooseMarkerLen contents) (sideSuffix (i + 1)) :: tl := by
        rw [htl]
      obtain ⟨ht2, hd2⟩ := takeWhile_append_stop tl hcontb hsidehdr
      show splitSectionsF (chooseMarkerLen contents) (f + 2)
        (mkMarkerLine '+' (chooseMarkerLen contents) (sideSuffix i) ::
          (s ++ (mkMarkerLine '-' (chooseMarkerLen contents) baseSuffix ::
            (b ++ matSections (chooseMarkerLen contents) (i + 1) ss bs)))) = _
      unfold splitSectionsF
      rw [headerChar_side _ hL i]
      show (match splitSectionsF (chooseMarkerLen contents) (f + 1)
          ((s ++ (mkMarkerLine '-' (chooseMarkerLen contents) baseSuffix ::
            (b ++ matSections (chooseMarkerLen contents) (i + 1) ss bs))).dropWhile
            fun l => (headerChar (chooseMarkerLen contents) l).isNone) with
        | none => none
        | some secs => some (('+',
            (s ++ (mkMarkerLine '-' (chooseMarkerLen contents) baseSuffix ::
              (b ++ matSections (chooseMarkerLen contents) (i + 1) ss bs))).takeWhile
              fun l => (headerChar (chooseMarkerLen contents) l).isNone) :: secs)) = _
      rw [hd1, ht1]
      unfold splitSectionsF
      rw [headerChar_base _ hL]
      show (match (match splitSectionsF (chooseMarkerLen contents) f
          ((b ++ matSections (chooseMarkerLen contents) (i + 1) ss bs).dropWhile
            fun l => (headerChar (chooseMarkerLen contents) l).isNone) with
        | none => none
        | some secs => some (('-',
            (b ++ matSections (chooseMarkerLen contents) (i + 1) ss bs).takeWhile
              fun l => (headerChar (chooseMarkerLen contents) l).isNone) :: secs)) with
        | none => none
        | some secs => some (('+', s) :: secs)) = _
      rw [hrest2, hd2, ht2, ← htl]
      rw [ih ss (i + 1) f hlen'
        (fun s' hs' => hss s' (List.mem_cons_of_mem _ hs'))
        (fun b' hb' => hbs b' (List.mem_cons_of_mem _ hb'))
        (by simp at hf ⊢; omega)]
      rfl

theorem runLen_hunk_header (L : Nat) :
    runLen '<' (mkMarkerLine '<' L hunkHeaderSuffix) = L := by
  apply runLen_replicate_append
  intro d hd
  have : (' ' : Char) = d := Option.some.inj hd
  subst this
  decide

theorem runLen_hunk_end (L : Nat) :
    runLen '>' (mkMarkerLine '>' L hunkEndSuffix) = L := by
  apply runLen_replicate_append
  intro d hd
  have : (' ' : Char) = d := Option.some.inj hd
  subst this
  decide

/-- C2: materializing a conflicted file value (`N` sides, `N-1` bases) with
conflict markers and parsing the text back at the materialized marker length
— the mode used when the tool opts into merge-tool-edits-conflict-markers —
returns exactly the original sides and bases. -/
theorem materialize_parse_roundtrip (sides bases : List (List (List Char)))
    (hlen : sides.length = bases.length + 1) :
    parseConflict (chooseMarkerLen ((sides ++ bases).flatten))
      (materializeConflict sides bases) = some (sides, bases) := by
  have hmem_s : ∀ s ∈ sides, ∀ l ∈ s, l ∈ (sides ++ bases).flatten := by
    intro s hs l hl
    exact List.mem_flatten.2 ⟨s, List.mem_append_left _ hs, hl⟩
  have hmem_b : ∀ b ∈ bases, ∀ l ∈ b, l ∈ (sides ++ bases).flatten := by
    intro b hb l hl
    exact List.mem_flatten.2 ⟨b, List.mem_append_right _ hb, hl⟩
  show parseConflict (chooseMarkerLen ((sides ++ bases).flatten))
    (mkMarkerLine '<' (chooseMarkerLen ((sides ++ bases).flatten)) hunkHeaderSuffix ::
      (matSections (chooseMarkerLen ((sides ++ bases).flatten)) 1 sides bases ++
        [mkMarkerLine '>' (chooseMarkerLen ((sides ++ bases).flatten)) hunkEndSuffix])) = _
  unfold parseConflict
  dsimp only
  rw [runLen_hunk_header]
  simp only [beq_self_eq_true, if_true]
  rw [List.getLast?_concat]
  dsimp only
  rw [runLen_hunk_end]
  simp only [beq_self_eq_true, if_true]
  rw [List.dropLast_concat]
  have hfuel : 2 * sides.length ≤
      (matSections (chooseMarkerLen ((sides ++ bases).flatten)) 1 sides bases ++
        [mkMarkerLine '>' (chooseMarkerLen ((sides ++ bases).flatten)) hunkEndSuffix]).length
        + 1 := by
    have := matSections_length (chooseMarkerLen ((sides ++ bases).flatten)) bases sides 1 hlen
    rw [List.length_append]
    omega
  rw [splitSections_mat bases sides 1 _ hlen hmem_s hmem_b hfuel]
  exact deinterleave_interleave bases sides hlen

/-- Witness for C2 on the two-sided conflict of the test (sides "a" and "b"
over base "base"): the round trip returns the original value. -/
theorem materialize_parse_roundtrip_witness :
    ([[['a']], [['b']]] : List (List (List Char))).length =
      ([[['b', 'a', 's', 'e']]] : List (List (List Char))).length + 1 ∧
    parseConflict
        (chooseMarkerLen ((([[['a']], [['b']]] : List (List (List Char))) ++
          [[['b', 'a', 's', 'e']]]).flatten))
        (materializeConflict [[['a']], [['b']]] [[['b', 'a', 's', 'e']]]) =
      some ([[['a']], [['b']]], [[['b', 'a', 's', 'e']]]) :=
  ⟨rfl, materialize_parse_roundtrip [[['a']], [['b']]] [[['b', 'a', 's', 'e']]] rfl⟩

/-- C8, amended: the hunk delimiters of a materialized conflict are runs of
`<` and `>` of one common length `L ≥ 7`, and `L` strictly exceeds every
marker-character run at the start of any content line; `L` is 7 when no
content line starts with a marker-like run of length at least 7, and
otherwise is that maximum run plus 4 (not 7 plus the maximum run). -/
theorem conflict_marker_len_rule (sides bases : List (List (List Char))) :
    7 ≤ chooseMarkerLen ((sides ++ bases).flatten) ∧
    (∀ l ∈ (sides ++ bases).flatten, ∀ c ∈ markerChars,
      runLen c l < chooseMarkerLen ((sides ++ bases).flatten)) ∧
    chooseMarkerLen ((sides ++ bases).flatten) =
      max (maxCountedRun ((sides ++ bases).flatten) + 4) 7 ∧
    (materializeConflict sides bases).head? =
      some (mkMarkerLine '<' (chooseMarkerLen ((sides ++ bases).flatten))
        hunkHeaderSuffix) ∧
    (materializeConflict sides bases).getLast? =
      some (mkMarkerLine '>' (chooseMarkerLen ((sides ++ bases).flatten))
        hunkEndSuffix) := by
  refine ⟨le_max_right _ _, fun l hl c hc => content_run_lt hl hc, rfl, rfl, ?_⟩
  show (mkMarkerLine '<' (chooseMarkerLen ((sides ++ bases).flatten)) hunkHeaderSuffix ::
    (matSections (chooseMarkerLen ((sides ++ bases).flatten)) 1 sides bases ++
      [mkMarkerLine '>' (chooseMarkerLen ((sides ++ bases).flatten)) hunkEndSuffix])).getLast?
    = _
  rw [show mkMarkerLine '<' (chooseMarkerLen ((sides ++ bases).flatten)) hunkHeaderSuffix ::
    (matSections (chooseMarkerLen ((sides ++ bases).flatten)) 1 sides bases ++
      [mkMarkerLine '>' (chooseMarkerLen ((sides ++ bases).flatten)) hunkEndSuffix]) =
    (mkMarkerLine '<' (chooseMarkerLen ((sides ++ bases).flatten)) hunkHeaderSuffix ::
      matSections (chooseMarkerLen ((sides ++ bases).flatten)) 1 sides bases) ++
      [mkMarkerLine '>' (chooseMarkerLen ((sides ++ bases).flatten)) hunkEndSuffix]
    from by simp]
  rw [List.getLast?_concat]

/-- The maximum run of `c` anywhere in a line (the spec's reading counts runs
that "appear in any side or base"). -/
def maxRunAnywhere (c : Char) (l : List Char) : Nat :=
  (l.foldl (fun p ch => if ch == c then (max p.1 (p.2 + 1), p.2 + 1) else (p.1, 0))
    ((0 : Nat), (0 : Nat))).1

/-- The marker length as the claim words it: 7 plus the maximum run of any of
the marker characters appearing in any side or base. -/
def specClaimMarkerLen (contents : List (List Char)) : Nat :=
  7 + listMax (contents.map
    (fun l => listMax (markerChars.map (fun c => maxRunAnywhere c l))))

/-- The contents of test_resolve_long_conflict_markers: sides "<<<<<<< a" and
">>>>>>> b" over base "======= base", each with a marker run of length 7. -/
def longMarkerSides : List (List (List Char)) :=
  [[['<', '<', '<', '<', '<', '<', '<', ' ', 'a']],
   [['>', '>', '>', '>', '>', '>', '>', ' ', 'b']]]

def longMarkerBases : List (List (List Char)) :=
  [[['=', '=', '=', '=', '=', '=', '=', ' ', 'b', 'a', 's', 'e']]]

/-- C8, counterexample: on the long-marker test contents the chosen length is
11 (maximum content run 7, plus 4) — the repository test shows delimiters
`<<<<<<<<<<<` of length 11 — while the claim's formula "7 plus the maximum
run" gives 14. -/
theorem conflict_marker_len_formula_fails :
    chooseMarkerLen ((longMarkerSides ++ longMarkerBases).flatten) = 11 ∧
    specClaimMarkerLen ((longMarkerSides ++ longMarkerBases).flatten) = 14 ∧
    chooseMarkerLen ((longMarkerSides ++ longMarkerBases).flatten) ≠
      specClaimMarkerLen ((longMarkerSides ++ longMarkerBases).flatten) := by
  decide

/-- Witness for the single-root part of the amended C5 statement on the
linear chain: target 2 ends up with the root target's parents. -/
theorem parallelize_single_root_and_chain_witness :
    0 ∈ parallelizeParents chainDag [1, 2, 3, 4] 2 ↔ 0 ∈ chainDag.parents 1 :=
  parallelize_single_root_and_chain.1 chainDag [1, 2, 3, 4] 1
    (by decide) (by decide) (by decide) 2 (by decide) 0
